import Mathlib

/-!
# Verification of the fuzzing pipeline scheduler's prioritization engine

This file gives a shallow embedding of `src/main.py` (the
`FuzzingPipelineScheduler` class) and proves properties of its
prioritization engine: the `normalize` min-max rescaler, the readiness
and cooldown filters, the weighted scoring, the stable descending sort
in `prioritize_projects`, and the short-circuit control flow of
`schedule_pipelines`.

Modelling choices:
* timestamps (`datetime` values) are integer seconds, so
  `(now - t).total_seconds()` becomes the integer `now - t` cast to `ℚ`,
  and `timedelta(hours=24)` is `86400`;
* real arithmetic on Python floats is modelled exactly over `ℚ`;
* the external DefectDojo lookup `get_defect_count` only ever consults
  the project's name and never raises (failures degrade to `0`), so it is
  modelled as an arbitrary function `defects : String → Nat` applied to
  `p.name`;
* the `TypeError` raised by `now - p.last_modified` when `last_modified`
  is `None` is modelled by returning `none` (`Option`-valued functions);
* Python's `list.sort(reverse=True, key=lambda x: x[0])` is a stable
  descending sort on the key: its output is the unique permutation that
  is non-increasing in the key and keeps elements with equal keys in
  their original relative order; `List.insertionSort scoreGE` computes
  exactly that permutation.
-/

namespace FuzzingPipelineScheduler

/-- Mirrors the `ProjectInfo` dataclass (src/main.py, lines 8-20).
Optional timestamps are `Option Int` (seconds). -/
structure ProjectInfo where
  id : Int
  name : String
  path_with_namespace : String
  web_url : String
  main_branch_exists : Bool
  has_gitlab_ci_file : Bool
  last_modified : Option Int
  last_pipeline_run : Option Int
  pipeline_run_count : Nat
  default_branch : String
  archived : Bool
  deriving DecidableEq, Repr

/-- `normalize` (src/main.py, lines 163-170): empty list passes through;
if `min = max` every entry becomes `0.5`; otherwise min-max rescale.
Python's `min(values)` / `max(values)` over a nonempty list are folds of
the binary `min` / `max` over the tail starting from the head. -/
def normalize (values : List ℚ) : List ℚ :=
  match values with
  | [] => []
  | v :: vs =>
    let min_v := vs.foldl min v
    let max_v := vs.foldl max v
    if min_v = max_v then (v :: vs).map (fun _ => (1 : ℚ) / 2)
    else (v :: vs).map (fun x => (x - min_v) / (max_v - min_v))

/-- `project_ready` (src/main.py, lines 122-124). -/
def project_ready (p : ProjectInfo) : Bool :=
  p.main_branch_exists && p.has_gitlab_ci_file

/-- The cooldown test inlined at src/main.py, lines 184-185:
`p.last_pipeline_run and now - p.last_pipeline_run < timedelta(hours=24)`.
A `datetime` object is always truthy, so the test is: the timestamp is
present and strictly less than 24 hours (86400 s) before `now`. -/
def in_cooldown (now : Int) (p : ProjectInfo) : Bool :=
  match p.last_pipeline_run with
  | none => false
  | some t => decide (now - t < 86400)

/-- The filtering pass of `prioritize_projects` (src/main.py, lines
180-185): keep exactly the projects that are ready and not in cooldown,
in discovery order. -/
def filtered_projects (now : Int) (projects : List ProjectInfo) : List ProjectInfo :=
  projects.filter (fun p => project_ready p && !in_cooldown now p)

/-- The `last_changes` signal list (src/main.py, line 190):
`(now - p.last_modified).total_seconds()` per kept project.  When some
kept project has no `last_modified`, the Python subtraction raises
`TypeError`; this is the `none` case. -/
def last_changes (now : Int) : List ProjectInfo → Option (List ℚ)
  | [] => some []
  | p :: ps =>
    match p.last_modified, last_changes now ps with
    | some t, some rest => some (((now - t : Int) : ℚ) :: rest)
    | _, _ => none

/-- The `run_counts` signal list (src/main.py, line 191). -/
def run_counts (projects : List ProjectInfo) : List ℚ :=
  projects.map (fun p => (p.pipeline_run_count : ℚ))

/-- The `defect_counts` signal list (src/main.py, lines 187, 192);
`get_defect_count` consults only the project's name. -/
def defect_counts (defects : String → Nat) (projects : List ProjectInfo) : List ℚ :=
  projects.map (fun p => (defects p.name : ℚ))

/-- `self.weights['last_change']` (src/main.py, line 35). -/
def w_last_change : ℚ := 3 / 10

/-- `self.weights['runs_count']` (src/main.py, line 36). -/
def w_runs_count : ℚ := 2 / 10

/-- `self.weights['defects']` (src/main.py, line 37). -/
def w_defects : ℚ := 4 / 10

/-- The `scored_projects` list of `(score, project)` pairs built at
src/main.py, lines 197-210, for an already-filtered list `kept`:
normalize the three signal lists independently, invert the run-count
signal, combine with the fixed weights.  `none` when `last_changes`
fails. -/
def scored_projects (defects : String → Nat) (now : Int) (kept : List ProjectInfo) :
    Option (List (ℚ × ProjectInfo)) :=
  match last_changes now kept with
  | none => none
  | some lc =>
    let norm_last_change := normalize lc
    let norm_runs_count := (normalize (run_counts kept)).map (fun x => 1 - x)
    let norm_defects := normalize (defect_counts defects kept)
    let scores := List.zipWith3
      (fun c r d => c * w_last_change + r * w_runs_count + d * w_defects)
      norm_last_change norm_runs_count norm_defects
    some (scores.zip kept)

/-- The ordering used by `scored_projects.sort(reverse=True, key=lambda
x: x[0])` (src/main.py, line 213): `a` may come before `b` exactly when
`a`'s score is at least `b`'s. -/
def scoreGE (a b : ℚ × ProjectInfo) : Prop := b.1 ≤ a.1

instance : DecidableRel scoreGE := fun a b => inferInstanceAs (Decidable (b.1 ≤ a.1))

instance : IsTotal (ℚ × ProjectInfo) scoreGE := ⟨fun a b => le_total b.1 a.1⟩

instance : IsTrans (ℚ × ProjectInfo) scoreGE := ⟨fun _ _ _ h1 h2 => le_trans h2 h1⟩

instance : IsRefl (ℚ × ProjectInfo) scoreGE := ⟨fun a => le_refl a.1⟩

/-- `prioritize_projects` (src/main.py, lines 172-214).  Python's
`sort(reverse=True, ...)` is stable, and `List.insertionSort scoreGE`
computes the same stable descending-by-score permutation.  The final
`return [p for _, p in scored_projects]` drops the scores. -/
def prioritize_projects (defects : String → Nat) (now : Int)
    (projects : List ProjectInfo) : Option (List ProjectInfo) :=
  let kept := filtered_projects now projects
  match scored_projects defects now kept with
  | none => none
  | some scored =>
    if kept.isEmpty then some []
    else some ((List.insertionSort scoreGE scored).map Prod.snd)

/-- Outcome of one scheduling cycle of `schedule_pipelines`
(src/main.py, lines 217-241); each early `return` (after its distinct
log message) is one abort constructor. -/
inductive CycleResult where
  | abortedNoRunners : CycleResult
  | abortedNoProjects : CycleResult
  | abortedNoEligibleProjects : CycleResult
  | ranked : List ProjectInfo → CycleResult
  deriving DecidableEq, Repr

/-- `schedule_pipelines` (src/main.py, lines 217-241) with the two
external queries (`get_available_runners`, `get_fuzzing_projects`)
injected as data; `none` models the uncaught `TypeError` escaping from
`prioritize_projects`. -/
def schedule_pipelines {R : Type} (defects : String → Nat) (now : Int)
    (available_runners : List R) (projects : List ProjectInfo) : Option CycleResult :=
  if available_runners.isEmpty then some .abortedNoRunners
  else if projects.isEmpty then some .abortedNoProjects
  else
    match prioritize_projects defects now projects with
    | none => none
    | some prioritized =>
      if prioritized.isEmpty then some .abortedNoEligibleProjects
      else some (.ranked prioritized)

/-- Overwrite the `archived` flag of a project, leaving every other
field unchanged. -/
def set_archived (b : Bool) (p : ProjectInfo) : ProjectInfo := { p with archived := b }

/-- The score sequence exactly as claim C1 words it: the three signal
sequences (seconds since `lastModified`, `pipelineRunCount`, defect
count) each normalized independently, then
`score[i] = normalizedChangeAge[i]*0.3 + (1 - normalizedRunCount[i])*0.2
+ normalizedDefects[i]*0.4`. -/
def claim_score_list (defects : String → Nat) (now : Int) (ps : List ProjectInfo) : List ℚ :=
  List.zipWith3
    (fun c r d => c * (3 / 10) + (1 - r) * (2 / 10) + d * (4 / 10))
    (normalize (ps.map (fun p => ((now - p.last_modified.getD 0 : Int) : ℚ))))
    (normalize (ps.map (fun p => (p.pipeline_run_count : ℚ))))
    (normalize (ps.map (fun p => (defects p.name : ℚ))))
/-! ## Helper lemmas: Python `min`/`max` as folds -/

lemma foldl_min_le : ∀ (l : List ℚ) (v : ℚ), l.foldl min v ≤ v
  | [], v => le_refl v
  | x :: xs, v => le_trans (foldl_min_le xs (min v x)) (min_le_left v x)

lemma le_foldl_max : ∀ (l : List ℚ) (v : ℚ), v ≤ l.foldl max v
  | [], v => le_refl v
  | x :: xs, v => le_trans (le_max_left v x) (le_foldl_max xs (max v x))

lemma foldl_min_le_mem : ∀ (l : List ℚ) (v x : ℚ), x ∈ l → l.foldl min v ≤ x := by
  intro l
  induction l with
  | nil => intro v x hx; cases hx
  | cons y ys ih =>
    intro v x hx
    rcases List.mem_cons.mp hx with h | h
    · subst h
      exact le_trans (foldl_min_le ys (min v x)) (min_le_right v x)
    · exact ih (min v y) x h

lemma mem_le_foldl_max : ∀ (l : List ℚ) (v x : ℚ), x ∈ l → x ≤ l.foldl max v := by
  intro l
  induction l with
  | nil => intro v x hx; cases hx
  | cons y ys ih =>
    intro v x hx
    rcases List.mem_cons.mp hx with h | h
    · subst h
      exact le_trans (le_max_right v x) (le_foldl_max ys (max v x))
    · exact ih (max v y) x h

lemma foldl_min_eq_or_mem : ∀ (l : List ℚ) (v : ℚ), l.foldl min v = v ∨ l.foldl min v ∈ l := by
  intro l
  induction l with
  | nil => intro v; exact Or.inl rfl
  | cons y ys ih =>
    intro v
    rcases ih (min v y) with h | h
    · rcases min_choice v y with hc | hc
      · exact Or.inl (by rw [List.foldl_cons, h, hc])
      · refine Or.inr (List.mem_cons.mpr (Or.inl ?_))
        rw [List.foldl_cons, h, hc]
    · exact Or.inr (List.mem_cons.mpr (Or.inr h))

lemma foldl_max_eq_or_mem : ∀ (l : List ℚ) (v : ℚ), l.foldl max v = v ∨ l.foldl max v ∈ l := by
  intro l
  induction l with
  | nil => intro v; exact Or.inl rfl
  | cons y ys ih =>
    intro v
    rcases ih (max v y) with h | h
    · rcases max_choice v y with hc | hc
      · exact Or.inl (by rw [List.foldl_cons, h, hc])
      · refine Or.inr (List.mem_cons.mpr (Or.inl ?_))
        rw [List.foldl_cons, h, hc]
    · exact Or.inr (List.mem_cons.mpr (Or.inr h))

/-! ## Helper lemmas: `normalize` -/

lemma normalize_length (l : List ℚ) : (normalize l).length = l.length := by
  match l with
  | [] => rfl
  | v :: vs =>
    rw [normalize]
    split <;> rw [List.length_map]

lemma normalize_all_eq {v : ℚ} {l : List ℚ} (h : ∀ x ∈ v :: l, x = v) :
    normalize (v :: l) = (v :: l).map fun _ => 1 / 2 := by
  have hmin : l.foldl min v = v := by
    rcases foldl_min_eq_or_mem l v with hm | hm
    · exact hm
    · exact h _ (List.mem_cons.mpr (Or.inr hm))
  have hmax : l.foldl max v = v := by
    rcases foldl_max_eq_or_mem l v with hm | hm
    · exact hm
    · exact h _ (List.mem_cons.mpr (Or.inr hm))
  rw [normalize]
  simp [hmin, hmax]

lemma normalize_nonconst {l : List ℚ} (h : ∃ a ∈ l, ∃ b ∈ l, a ≠ b) :
    ∃ m M : ℚ, m ∈ l ∧ M ∈ l ∧ m < M ∧ (∀ x ∈ l, m ≤ x ∧ x ≤ M) ∧
      normalize l = l.map fun x => (x - m) / (M - m) := by
  match l with
  | [] =>
    obtain ⟨a, ha, -⟩ := h
    cases ha
  | v :: vs =>
    set m := vs.foldl min v with hm
    set M := vs.foldl max v with hM
    have hmle : ∀ x ∈ v :: vs, m ≤ x := by
      intro x hx
      rcases List.mem_cons.mp hx with hx | hx
      · subst hx; exact foldl_min_le vs x
      · exact foldl_min_le_mem vs v x hx
    have hMge : ∀ x ∈ v :: vs, x ≤ M := by
      intro x hx
      rcases List.mem_cons.mp hx with hx | hx
      · subst hx; exact le_foldl_max vs x
      · exact mem_le_foldl_max vs v x hx
    have hmM : m ≠ M := by
      intro heq
      obtain ⟨a, ha, b, hb, hab⟩ := h
      have h1 : a = m := le_antisymm (heq ▸ hMge a ha) (hmle a ha)
      have h2 : b = m := le_antisymm (heq ▸ hMge b hb) (hmle b hb)
      exact hab (h1.trans h2.symm)
    have hmem_m : m ∈ v :: vs := by
      rcases foldl_min_eq_or_mem vs v with hc | hc
      · exact hc ▸ List.mem_cons_self v vs
      · exact List.mem_cons.mpr (Or.inr hc)
    have hmem_M : M ∈ v :: vs := by
      rcases foldl_max_eq_or_mem vs v with hc | hc
      · exact hc ▸ List.mem_cons_self v vs
      · exact List.mem_cons.mpr (Or.inr hc)
    refine ⟨m, M, hmem_m, hmem_M, lt_of_le_of_ne (le_trans (hmle M hmem_M) (le_refl M)) hmM,
      fun x hx => ⟨hmle x hx, hMge x hx⟩, ?_⟩
    rw [normalize]
    simp only [← hm, ← hM, if_neg hmM]

lemma normalize_mem_unit {l : List ℚ} {y : ℚ} (hy : y ∈ normalize l) : 0 ≤ y ∧ y ≤ 1 := by
  match l with
  | [] => cases hy
  | v :: vs =>
    by_cases hc : ∃ a ∈ v :: vs, ∃ b ∈ v :: vs, a ≠ b
    · obtain ⟨m, M, -, -, hlt, hbnd, heq⟩ := normalize_nonconst hc
      rw [heq] at hy
      obtain ⟨x, hx, rfl⟩ := List.mem_map.mp hy
      have hpos : (0 : ℚ) < M - m := by linarith
      constructor
      · apply div_nonneg _ (le_of_lt hpos)
        linarith [(hbnd x hx).1]
      · rw [div_le_one hpos]
        linarith [(hbnd x hx).2]
    · push_neg at hc
      have hall : ∀ x ∈ v :: vs, x = v := by
        intro x hx
        exact hc x hx v (List.mem_cons_self v vs)
      rw [normalize_all_eq hall] at hy
      obtain ⟨x, -, rfl⟩ := List.mem_map.mp hy
      norm_num
/-! ## Helper lemmas: the signal lists -/

lemma last_changes_eq_none {now : Int} :
    ∀ {ps : List ProjectInfo}, (∃ p ∈ ps, p.last_modified = none) → last_changes now ps = none := by
  intro ps
  induction ps with
  | nil => rintro ⟨p, hp, -⟩; cases hp
  | cons q qs ih =>
    rintro ⟨p, hp, hnone⟩
    rcases List.mem_cons.mp hp with hq | hq
    · subst hq
      rw [last_changes, hnone]
    · rw [last_changes, ih ⟨p, hq, hnone⟩]
      cases q.last_modified <;> rfl

lemma last_changes_of_all_some {now : Int} :
    ∀ {ps : List ProjectInfo}, (∀ p ∈ ps, p.last_modified.isSome) →
      last_changes now ps =
        some (ps.map fun p => ((now - p.last_modified.getD 0 : Int) : ℚ)) := by
  intro ps
  induction ps with
  | nil => intro; rfl
  | cons q qs ih =>
    intro h
    have hq := h q (List.mem_cons_self q qs)
    obtain ⟨t, ht⟩ := Option.isSome_iff_exists.mp hq
    rw [last_changes, ht, ih fun p hp => h p (List.mem_cons.mpr (Or.inr hp))]
    simp [ht]

lemma last_changes_length {now : Int} :
    ∀ {ps : List ProjectInfo} {lc : List ℚ}, last_changes now ps = some lc →
      lc.length = ps.length := by
  intro ps
  induction ps with
  | nil => intro lc h; cases h; rfl
  | cons q qs ih =>
    intro lc h
    rw [last_changes] at h
    cases hq : q.last_modified with
    | none => rw [hq] at h; cases h
    | some t =>
      rw [hq] at h
      cases hrest : last_changes now qs with
      | none => rw [hrest] at h; cases h
      | some rest =>
        rw [hrest] at h
        cases h
        simp [ih hrest]

/-! ## Helper lemmas: `List.zipWith3` -/

lemma length_zipWith3 {α β γ δ : Type} (f : α → β → γ → δ) :
    ∀ (as : List α) (bs : List β) (cs : List γ),
      (List.zipWith3 f as bs cs).length = min (min as.length bs.length) cs.length
  | [], _, _ => by simp [List.zipWith3]
  | _ :: _, [], _ => by simp [List.zipWith3]
  | _ :: _, _ :: _, [] => by simp [List.zipWith3]
  | a :: as, b :: bs, c :: cs => by
    simp only [List.zipWith3, List.length_cons, length_zipWith3 f as bs cs]
    omega

lemma mem_zipWith3 {α β γ δ : Type} {f : α → β → γ → δ} {y : δ} :
    ∀ {as : List α} {bs : List β} {cs : List γ}, y ∈ List.zipWith3 f as bs cs →
      ∃ a ∈ as, ∃ b ∈ bs, ∃ c ∈ cs, y = f a b c := by
  intro as
  induction as with
  | nil => intro bs cs h; cases h
  | cons a as ih =>
    intro bs cs h
    match bs, cs with
    | [], _ => cases h
    | _ :: _, [] => cases h
    | b :: bs', c :: cs' =>
      rcases List.mem_cons.mp h with h | h
      · exact ⟨a, List.mem_cons_self _ _, b, List.mem_cons_self _ _, c,
          List.mem_cons_self _ _, h⟩
      · obtain ⟨a', ha, b', hb, c', hc, hy⟩ := ih h
        exact ⟨a', List.mem_cons.mpr (Or.inr ha), b', List.mem_cons.mpr (Or.inr hb),
          c', List.mem_cons.mpr (Or.inr hc), hy⟩

lemma zipWith3_map_mid {α β γ δ ε : Type} (f : α → β → γ → δ) (g : ε → β) :
    ∀ (as : List α) (bs : List ε) (cs : List γ),
      List.zipWith3 f as (bs.map g) cs = List.zipWith3 (fun a b c => f a (g b) c) as bs cs
  | [], _, _ => by cases ‹List ε› <;> rfl
  | _ :: _, [], _ => rfl
  | _ :: _, _ :: _, [] => rfl
  | a :: as, b :: bs, c :: cs => by
    simp only [List.map_cons, List.zipWith3, zipWith3_map_mid f g as bs cs]

/-! ## Helper lemmas: `scored_projects` and `prioritize_projects` -/

lemma scored_projects_eq_none {defects : String → Nat} {now : Int} {kept : List ProjectInfo}
    (h : ∃ p ∈ kept, p.last_modified = none) : scored_projects defects now kept = none := by
  rw [scored_projects, last_changes_eq_none h]

lemma scored_projects_of_all_some {defects : String → Nat} {now : Int} {kept : List ProjectInfo}
    (h : ∀ p ∈ kept, p.last_modified.isSome) :
    scored_projects defects now kept = some ((claim_score_list defects now kept).zip kept) := by
  rw [scored_projects, last_changes_of_all_some h]
  simp only [claim_score_list, run_counts, defect_counts]
  rw [zipWith3_map_mid]
  congr 2

lemma scored_projects_length {defects : String → Nat} {now : Int} {kept : List ProjectInfo}
    {scored : List (ℚ × ProjectInfo)} (h : scored_projects defects now kept = some scored) :
    scored.length = kept.length ∧ scored.map Prod.snd = kept := by
  rw [scored_projects] at h
  cases hlc : last_changes now kept with
  | none => rw [hlc] at h; cases h
  | some lc =>
    rw [hlc] at h
    simp only [Option.some.injEq] at h
    have hlen : lc.length = kept.length := last_changes_length hlc
    have hscores : (List.zipWith3
        (fun c r d => c * w_last_change + r * w_runs_count + d * w_defects)
        (normalize lc) ((normalize (run_counts kept)).map fun x => 1 - x)
        (normalize (defect_counts defects kept))).length = kept.length := by
      rw [length_zipWith3, normalize_length, List.length_map, normalize_length,
        normalize_length]
      simp [run_counts, defect_counts, hlen]
    subst h
    constructor
    · rw [List.length_zip, hscores, min_self]
    · exact List.map_snd_zip _ _ (le_of_eq hscores.symm)
lemma prioritize_projects_eq (defects : String → Nat) (now : Int) (ps : List ProjectInfo) :
    prioritize_projects defects now ps =
      (scored_projects defects now (filtered_projects now ps)).map
        fun scored => (List.insertionSort scoreGE scored).map Prod.snd := by
  rw [prioritize_projects]
  cases h : scored_projects defects now (filtered_projects now ps) with
  | none => rfl
  | some scored =>
    simp only [Option.map_some']
    split
    next hk =>
      have hkept : filtered_projects now ps = [] := List.isEmpty_iff.mp hk
      have hs : scored.map Prod.snd = filtered_projects now ps := (scored_projects_length h).2
      rw [hkept] at hs
      rw [List.map_eq_nil_iff.mp hs]
      rfl
    next => rfl

lemma prioritize_perm {defects : String → Nat} {now : Int} {ps l : List ProjectInfo}
    (h : prioritize_projects defects now ps = some l) :
    l.Perm (filtered_projects now ps) := by
  rw [prioritize_projects_eq] at h
  cases hs : scored_projects defects now (filtered_projects now ps) with
  | none => rw [hs] at h; cases h
  | some scored =>
    rw [hs] at h
    simp only [Option.map_some', Option.some.injEq] at h
    subst h
    have h1 := (List.perm_insertionSort scoreGE scored).map Prod.snd
    rw [(scored_projects_length hs).2] at h1
    exact h1

lemma mem_filtered {now : Int} {p : ProjectInfo} {ps : List ProjectInfo} :
    p ∈ filtered_projects now ps ↔
      p ∈ ps ∧ project_ready p = true ∧ in_cooldown now p = false := by
  simp [filtered_projects, List.mem_filter]

lemma mem_prioritize {defects : String → Nat} {now : Int} {ps l : List ProjectInfo}
    {p : ProjectInfo} (h : prioritize_projects defects now ps = some l) :
    p ∈ l ↔ p ∈ ps ∧ project_ready p = true ∧ in_cooldown now p = false := by
  rw [(prioritize_perm h).mem_iff, mem_filtered]

lemma filter_insertionSort (pr : ℚ × ProjectInfo → Bool)
    (hpr : ∀ a b : ℚ × ProjectInfo, pr a = true → pr b = true → scoreGE a b)
    (l : List (ℚ × ProjectInfo)) :
    (List.insertionSort scoreGE l).filter pr = l.filter pr := by
  have hpw : (l.filter pr).Pairwise scoreGE :=
    List.pairwise_of_forall_mem_list fun a ha b hb =>
      hpr a b (List.of_mem_filter ha) (List.of_mem_filter hb)
  have hsub : List.Sublist (l.filter pr) (List.insertionSort scoreGE l) :=
    List.sublist_insertionSort hpw (List.filter_sublist l)
  have heq : (l.filter pr).filter pr = l.filter pr :=
    List.filter_eq_self.mpr fun a ha => List.of_mem_filter ha
  have hsub2 : List.Sublist (l.filter pr) ((List.insertionSort scoreGE l).filter pr) := by
    have := hsub.filter pr
    rwa [heq] at this
  have hlen : ((List.insertionSort scoreGE l).filter pr).length = (l.filter pr).length :=
    ((List.perm_insertionSort scoreGE l).filter pr).length_eq
  exact (hsub2.eq_of_length hlen.symm).symm

/-! ## Helper lemmas: the `archived` field is inert -/

lemma filtered_map_set_archived (now : Int) (b : Bool) (ps : List ProjectInfo) :
    filtered_projects now (ps.map (set_archived b)) =
      (filtered_projects now ps).map (set_archived b) := by
  rw [filtered_projects, filtered_projects, List.filter_map]
  rfl

lemma last_changes_map_set_archived (now : Int) (b : Bool) :
    ∀ ps : List ProjectInfo, last_changes now (ps.map (set_archived b)) = last_changes now ps
  | [] => rfl
  | p :: ps => by
    rw [List.map_cons, last_changes, last_changes, last_changes_map_set_archived now b ps]
    rfl

lemma scored_projects_map_set_archived (defects : String → Nat) (now : Int) (b : Bool)
    (kept : List ProjectInfo) :
    scored_projects defects now (kept.map (set_archived b)) =
      Option.map (List.map (Prod.map id (set_archived b)))
        (scored_projects defects now kept) := by
  rw [scored_projects, scored_projects, last_changes_map_set_archived]
  cases last_changes now kept with
  | none => rfl
  | some lc =>
    have hrc : run_counts (kept.map (set_archived b)) = run_counts kept := by
      rw [run_counts, run_counts, List.map_map]; rfl
    have hdc : defect_counts defects (kept.map (set_archived b)) =
        defect_counts defects kept := by
      rw [defect_counts, defect_counts, List.map_map]; rfl
    simp only [Option.map_some', hrc, hdc, List.zip_map_right]

lemma insertionSort_map_set_archived (b : Bool) (l : List (ℚ × ProjectInfo)) :
    List.insertionSort scoreGE (l.map (Prod.map id (set_archived b))) =
      (List.insertionSort scoreGE l).map (Prod.map id (set_archived b)) :=
  (List.map_insertionSort scoreGE scoreGE (Prod.map id (set_archived b)) l
    fun _ _ _ _ => Iff.rfl).symm

lemma prioritize_map_set_archived (defects : String → Nat) (now : Int) (b : Bool)
    (ps : List ProjectInfo) :
    prioritize_projects defects now (ps.map (set_archived b)) =
      Option.map (List.map (set_archived b)) (prioritize_projects defects now ps) := by
  rw [prioritize_projects_eq, prioritize_projects_eq, filtered_map_set_archived,
    scored_projects_map_set_archived]
  cases scored_projects defects now (filtered_projects now ps) with
  | none => rfl
  | some scored =>
    simp only [Option.map_some']
    rw [insertionSort_map_set_archived, List.map_map, List.map_map]
    rfl
lemma normalize_singleton (x : ℚ) : normalize [x] = [1 / 2] := by
  have h := normalize_all_eq (v := x) (l := []) (by simp)
  simpa using h

lemma claim_score_list_length (defects : String → Nat) (now : Int) (ps : List ProjectInfo) :
    (claim_score_list defects now ps).length = ps.length := by
  rw [claim_score_list, length_zipWith3]
  simp [normalize_length]

lemma prioritize_singleton (defects : String → Nat) (now : Int) (p : ProjectInfo)
    (h1 : project_ready p = true) (h2 : in_cooldown now p = false)
    (h3 : p.last_modified.isSome) :
    prioritize_projects defects now [p] = some [p] := by
  have hkept : filtered_projects now [p] = [p] := by
    simp [filtered_projects, h1, h2]
  have hm : ∀ q ∈ [p], q.last_modified.isSome := by simpa using h3
  rw [prioritize_projects_eq, hkept, scored_projects_of_all_some hm]
  obtain ⟨s, hs⟩ := List.length_eq_one.mp (claim_score_list_length defects now [p])
  rw [hs]
  rfl

/-! ## Concrete sample data -/

/-- A sample project record. -/
def sample (i : Int) (nm : String) (mb ci : Bool) (lm lpr : Option Int) (rc : Nat)
    (ar : Bool) : ProjectInfo :=
  { id := i, name := nm, path_with_namespace := "grp/" ++ nm, web_url := "url/" ++ nm,
    main_branch_exists := mb, has_gitlab_ci_file := ci, last_modified := lm,
    last_pipeline_run := lpr, pipeline_run_count := rc, default_branch := "main",
    archived := ar }

/-- A defect lookup that always reports zero open defects. -/
def no_defects : String → Nat := fun _ => 0

/-- A fixed current time (in seconds). -/
def t0 : Int := 1000000

def pA : ProjectInfo := sample 1 "alpha" true true (some (t0 - 100000)) none 10 false

def pB : ProjectInfo := sample 2 "beta" true true (some (t0 - 50)) none 0 false

def pC : ProjectInfo := sample 3 "gamma" true true (some (t0 - 200000)) none 5 false

/-- Defect counts 2 / 0 / 8 for `pA` / `pB` / `pC`. -/
def sample_defects : String → Nat :=
  fun s => if s = "alpha" then 2 else if s = "gamma" then 8 else 0

/-- Ready-check fails: the main branch is missing. -/
def pNotReady : ProjectInfo := sample 9 "omega" false true (some 0) none 0 false

/-- Ready and not in cooldown, but `last_modified` is absent. -/
def pNoStamp : ProjectInfo := sample 4 "delta" true true none none 0 false

def pD : ProjectInfo := sample 5 "eps" true true (some (t0 - 100)) none 0 false

/-- Identical signals to `pD`, later in discovery order. -/
def pE : ProjectInfo := sample 6 "zeta" true true (some (t0 - 100)) none 0 false

def p1 : ProjectInfo := sample 7 "eta" true true (some (t0 - 100)) none 0 false

def p2 : ProjectInfo := sample 8 "theta" true true (some (t0 - 100)) none 0 false

/-- Reports five open defects for `p1` only. -/
def dC2 : String → Nat := fun s => if s = "eta" then 5 else 0

/-- An archived but otherwise eligible project. -/
def pArch : ProjectInfo := sample 10 "iota" true true (some (t0 - 100)) none 0 true

/-- In cooldown: last pipeline run one hour before `t0`. -/
def pCool : ProjectInfo := sample 11 "kappa" true true (some 0) (some (t0 - 3600)) 0 false

/-! ## The claims -/

/-- **C1**: for every input sequence of candidates that all pass
readiness and are not in cooldown (each carrying the `lastModified`
value that scoring requires), `prioritize_projects` returns exactly the
candidates reordered by descending score, where the score sequence is
`claim_score_list`: the three signal sequences (seconds since
`lastModified`, `pipelineRunCount`, defect count) normalized
independently, the run-count signal inverted, combined with the default
weights (0.3, 0.2, 0.4). -/
theorem C1_rank_orders_by_descending_score (defects : String → Nat) (now : Int)
    (ps : List ProjectInfo)
    (hf : ∀ p ∈ ps, project_ready p = true ∧ in_cooldown now p = false)
    (hm : ∀ p ∈ ps, p.last_modified.isSome) :
    ∃ sorted_pairs : List (ℚ × ProjectInfo),
      sorted_pairs.Perm ((claim_score_list defects now ps).zip ps) ∧
      (sorted_pairs.map Prod.fst).Sorted (· ≥ ·) ∧
      prioritize_projects defects now ps = some (sorted_pairs.map Prod.snd) := by
  have hkept : filtered_projects now ps = ps :=
    List.filter_eq_self.mpr fun p hp => by
      obtain ⟨h1, h2⟩ := hf p hp
      simp [h1, h2]
  refine ⟨List.insertionSort scoreGE ((claim_score_list defects now ps).zip ps),
    List.perm_insertionSort _ _, ?_, ?_⟩
  · have hs := List.sorted_insertionSort scoreGE ((claim_score_list defects now ps).zip ps)
    exact List.Pairwise.map Prod.fst (fun a b hab => hab) hs
  · rw [prioritize_projects_eq, hkept, scored_projects_of_all_some hm]
    rfl

/-- Witness for C1: the spec's end-to-end scenario (three candidates,
run counts 10/0/5, change ages 100000/50/200000 s, defects 2/0/8). -/
theorem C1_witness :
    ∃ sorted_pairs : List (ℚ × ProjectInfo),
      sorted_pairs.Perm ((claim_score_list sample_defects t0 [pA, pB, pC]).zip
        [pA, pB, pC]) ∧
      (sorted_pairs.map Prod.fst).Sorted (· ≥ ·) ∧
      prioritize_projects sample_defects t0 [pA, pB, pC] =
        some (sorted_pairs.map Prod.snd) :=
  C1_rank_orders_by_descending_score sample_defects t0 [pA, pB, pC]
    (by decide) (by decide)

/-- **C2**: `normalize` maps `[]` to `[]`; an all-equal input (including
singletons) maps to all `0.5`; any non-constant input is rescaled
positionally by `(x - min) / (max - min)`; the output always has the
input's length with every entry in `[0,1]`; and
`normalize [1,2,3] = [0, 0.5, 1]`. -/
theorem C2_normalize_spec :
    normalize [] = [] ∧
    (∀ (v : ℚ) (l : List ℚ), (∀ x ∈ v :: l, x = v) →
      normalize (v :: l) = (v :: l).map fun _ => 1 / 2) ∧
    (∀ l : List ℚ, (∃ a ∈ l, ∃ b ∈ l, a ≠ b) →
      ∃ m M : ℚ, m ∈ l ∧ M ∈ l ∧ m < M ∧ (∀ x ∈ l, m ≤ x ∧ x ≤ M) ∧
        normalize l = l.map fun x => (x - m) / (M - m)) ∧
    (∀ l : List ℚ, (normalize l).length = l.length) ∧
    (∀ l : List ℚ, ∀ y ∈ normalize l, 0 ≤ y ∧ y ≤ 1) ∧
    normalize [1, 2, 3] = [0, 1 / 2, 1] :=
  ⟨rfl, fun _ _ h => normalize_all_eq h, fun _ h => normalize_nonconst h,
    normalize_length, fun _ _ hy => normalize_mem_unit hy, by norm_num [normalize]⟩

/-- Witness for C2 at the all-equal input `[5,5,5]`. -/
theorem C2_witness :
    normalize [(5 : ℚ), 5, 5] = [(5 : ℚ), 5, 5].map fun _ => 1 / 2 :=
  C2_normalize_spec.2.1 5 [5, 5] (by decide)

/-- **C3**: a candidate is in cooldown iff `last_pipeline_run` is
present and strictly less than 24 hours (86400 s) before `now`; an
absent timestamp never triggers cooldown; `now - 1 h` is in cooldown,
`now - 25 h` and exactly `now - 24 h` are not; and a candidate in
cooldown never survives the filter pass. -/
theorem C3_cooldown_rule (now : Int) (p : ProjectInfo) :
    (in_cooldown now p = true ↔
      ∃ t, p.last_pipeline_run = some t ∧ now - t < 86400) ∧
    (p.last_pipeline_run = none → in_cooldown now p = false) ∧
    (p.last_pipeline_run = some (now - 3600) → in_cooldown now p = true) ∧
    (p.last_pipeline_run = some (now - 90000) → in_cooldown now p = false) ∧
    (p.last_pipeline_run = some (now - 86400) → in_cooldown now p = false) ∧
    (∀ ps : List ProjectInfo, in_cooldown now p = true →
      p ∉ filtered_projects now ps) := by
  refine ⟨?_, ?_, ?_, ?_, ?_, ?_⟩
  · cases ht : p.last_pipeline_run with
    | none => simp [in_cooldown, ht]
    | some t => simp [in_cooldown, ht]
  · intro h; simp [in_cooldown, h]
  · intro h; simp [in_cooldown, h]
  · intro h; simp [in_cooldown, h]
  · intro h; simp [in_cooldown, h]
  · intro ps h hmem
    rw [mem_filtered] at hmem
    rw [hmem.2.2] at h
    cases h

/-- Witness for C3: a candidate whose last run was one hour ago is in
cooldown, one whose last run was 25 hours ago is not. -/
theorem C3_witness :
    in_cooldown t0 pCool = true ∧
    in_cooldown t0 (sample 12 "mu" true true (some 0) (some (t0 - 90000)) 0 false) = false :=
  ⟨(C3_cooldown_rule t0 pCool).2.2.1 rfl,
   (C3_cooldown_rule t0 (sample 12 "mu" true true (some 0) (some (t0 - 90000)) 0
     false)).2.2.2.1 rfl⟩

/-- **C4**: readiness is exactly `mainBranchExists AND
hasPipelineDefinition`, and any candidate missing either never appears
in the ranked output, regardless of its other fields. -/
theorem C4_readiness_rule :
    (∀ p : ProjectInfo, project_ready p = true ↔
      p.main_branch_exists = true ∧ p.has_gitlab_ci_file = true) ∧
    ∀ (defects : String → Nat) (now : Int) (ps l : List ProjectInfo) (p : ProjectInfo),
      prioritize_projects defects now ps = some l → p ∈ l →
        p.main_branch_exists = true ∧ p.has_gitlab_ci_file = true := by
  constructor
  · intro p
    rw [project_ready, Bool.and_eq_true]
  · intro defects now ps l p h hp
    have hmem := (mem_prioritize h).mp hp
    have hr := hmem.2.1
    rw [project_ready, Bool.and_eq_true] at hr
    exact hr

/-- Witness for C4 at a concrete one-candidate output. -/
theorem C4_witness :
    pA.main_branch_exists = true ∧ pA.has_gitlab_ci_file = true :=
  C4_readiness_rule.2 no_defects t0 [pA] [pA] pA
    (prioritize_singleton no_defects t0 pA (by decide) (by decide) (by decide)) (by decide)

/-- **C5**: the descending sort is stable: the scored sequence keeps the
filtered (discovery) order, the ranked output is its stable descending
sort, and for every score value the candidates attaining it appear in
the output exactly in their filtered order. -/
theorem C5_sort_stable (defects : String → Nat) (now : Int) (ps : List ProjectInfo)
    (scored : List (ℚ × ProjectInfo))
    (h : scored_projects defects now (filtered_projects now ps) = some scored) :
    scored.map Prod.snd = filtered_projects now ps ∧
    prioritize_projects defects now ps =
      some ((List.insertionSort scoreGE scored).map Prod.snd) ∧
    ∀ q : ℚ, (List.insertionSort scoreGE scored).filter (fun x => decide (x.1 = q)) =
      scored.filter (fun x => decide (x.1 = q)) := by
  refine ⟨(scored_projects_length h).2, ?_, ?_⟩
  · rw [prioritize_projects_eq, h]
    rfl
  · intro q
    apply filter_insertionSort
    intro a b ha hb
    rw [scoreGE, of_decide_eq_true ha, of_decide_eq_true hb]

/-- Witness for C5: two candidates with identical signals (hence equal
scores 9/20) keep their discovery order. -/
theorem C5_witness :
    prioritize_projects no_defects t0 [pD, pE] =
      some ((List.insertionSort scoreGE
        [((9 : ℚ)/20, pD), ((9 : ℚ)/20, pE)]).map Prod.snd) ∧
    (List.insertionSort scoreGE [((9 : ℚ)/20, pD), ((9 : ℚ)/20, pE)]).filter
        (fun x => decide (x.1 = 9/20)) =
      [((9 : ℚ)/20, pD), ((9 : ℚ)/20, pE)].filter (fun x => decide (x.1 = 9/20)) := by
  have h : scored_projects no_defects t0 (filtered_projects t0 [pD, pE]) =
      some [((9 : ℚ)/20, pD), ((9 : ℚ)/20, pE)] := by
    norm_num [scored_projects, filtered_projects, project_ready, in_cooldown, last_changes,
      run_counts, defect_counts, normalize, List.zipWith3, w_last_change, w_runs_count,
      w_defects, pD, pE, sample, no_defects, t0]
  exact ⟨(C5_sort_stable no_defects t0 [pD, pE] _ h).2.1,
    (C5_sort_stable no_defects t0 [pD, pE] _ h).2.2 (9/20)⟩
lemma scored_scores_unit {defects : String → Nat} {now : Int} {kept : List ProjectInfo}
    {scored : List (ℚ × ProjectInfo)} (h : scored_projects defects now kept = some scored) :
    ∀ x ∈ scored, 0 ≤ x.1 ∧ x.1 ≤ 1 := by
  rw [scored_projects] at h
  cases hlc : last_changes now kept with
  | none => rw [hlc] at h; cases h
  | some lc =>
    rw [hlc] at h
    simp only [Option.some.injEq] at h
    subst h
    rintro ⟨s, p⟩ hx
    have hs := (List.of_mem_zip hx).1
    obtain ⟨c, hc, r, hr, d, hd, hsval⟩ := mem_zipWith3 hs
    obtain ⟨r', hr', rfl⟩ := List.mem_map.mp hr
    have hcu := normalize_mem_unit hc
    have hru := normalize_mem_unit hr'
    have hdu := normalize_mem_unit hd
    subst hsval
    simp only [w_last_change, w_runs_count, w_defects]
    constructor <;> · dsimp only; linarith [hcu.1, hcu.2, hru.1, hru.2, hdu.1, hdu.2]

lemma isEmpty_false_of_ne_nil {α : Type} {l : List α} (h : l ≠ []) : l.isEmpty = false := by
  cases l with
  | nil => exact absurd rfl h
  | cons a l => rfl

/-- **C6 is false as stated**: the returned sequence does not carry the
scores.  Two cycles over the same candidates whose computed score lists
differ (because the defect lookups differ) produce the *identical*
output, which is impossible if every output element were a
`{candidate, score}` pair holding its computed score. -/
theorem C6_counterexample :
    prioritize_projects no_defects t0 [p1, p2] = prioritize_projects dC2 t0 [p1, p2] ∧
    scored_projects no_defects t0 (filtered_projects t0 [p1, p2]) ≠
      scored_projects dC2 t0 (filtered_projects t0 [p1, p2]) := by
  have h1 : dC2 "eta" = 5 := rfl
  have h2 : dC2 "theta" = 0 := rfl
  constructor
  · norm_num [prioritize_projects, scored_projects, filtered_projects, project_ready,
      in_cooldown, last_changes, run_counts, defect_counts, normalize, List.zipWith3,
      w_last_change, w_runs_count, w_defects, p1, p2, sample, no_defects, h1, h2, t0,
      min_def, max_def, List.insertionSort, List.orderedInsert, scoreGE]
  · norm_num [scored_projects, filtered_projects, project_ready, in_cooldown,
      last_changes, run_counts, defect_counts, normalize, List.zipWith3,
      w_last_change, w_runs_count, w_defects, p1, p2, sample, no_defects, h1, h2, t0,
      min_def, max_def]

/-- **C6 (amended)**: every score the engine computes for a kept
candidate lies in `[0,1]`, and an empty filtered set yields `some []`
rather than an error; but the returned sequence holds the bare
candidates only — the final comprehension drops the scores. -/
theorem C6_scores_in_unit_interval (defects : String → Nat) (now : Int)
    (ps : List ProjectInfo) (scored : List (ℚ × ProjectInfo))
    (h : scored_projects defects now (filtered_projects now ps) = some scored) :
    (∀ x ∈ scored, 0 ≤ x.1 ∧ x.1 ≤ 1) ∧
    prioritize_projects defects now ps =
      some ((List.insertionSort scoreGE scored).map Prod.snd) ∧
    (filtered_projects now ps = [] → prioritize_projects defects now ps = some []) := by
  refine ⟨scored_scores_unit h, ?_, ?_⟩
  · rw [prioritize_projects_eq, h]
    rfl
  · intro hemp
    rw [prioritize_projects_eq, hemp]
    rfl

/-- Witness for C6 (amended) on a one-candidate input with score 9/20. -/
theorem C6_witness :
    prioritize_projects no_defects t0 [pD] =
      some ((List.insertionSort scoreGE [((9 : ℚ)/20, pD)]).map Prod.snd) ∧
    (0 ≤ ((9 : ℚ)/20, pD).1 ∧ ((9 : ℚ)/20, pD).1 ≤ 1) := by
  have h : scored_projects no_defects t0 (filtered_projects t0 [pD]) =
      some [((9 : ℚ)/20, pD)] := by
    norm_num [scored_projects, filtered_projects, project_ready, in_cooldown, last_changes,
      run_counts, defect_counts, normalize, List.zipWith3, w_last_change, w_runs_count,
      w_defects, pD, sample, no_defects, t0]
  exact ⟨(C6_scores_in_unit_interval no_defects t0 [pD] _ h).2.1,
    (C6_scores_in_unit_interval no_defects t0 [pD] _ h).1 _ (List.mem_singleton.mpr rfl)⟩

/-- **C7 is false as stated** (the subset is not in general *strict*):
with a single eligible candidate the output carries exactly the input
candidate set. -/
theorem C7_counterexample :
    prioritize_projects no_defects t0 [pA] = some [pA] ∧
    ¬ ([pA] : List ProjectInfo).toFinset ⊂ ([pA] : List ProjectInfo).toFinset :=
  ⟨prioritize_singleton no_defects t0 pA (by decide) (by decide) (by decide),
   fun h => (ne_of_ssubset h) rfl⟩

/-- **C7 (amended)**: the candidates carried in the output form a subset
— not in general a strict one — of the input candidates, with membership
exactly readiness plus not-in-cooldown. -/
theorem C7_output_subset (defects : String → Nat) (now : Int) (ps l : List ProjectInfo)
    (h : prioritize_projects defects now ps = some l) :
    ∀ p : ProjectInfo, p ∈ l ↔
      p ∈ ps ∧ project_ready p = true ∧ in_cooldown now p = false :=
  fun _ => mem_prioritize h

/-- Witness for C7 (amended) on a one-candidate input. -/
theorem C7_witness :
    pA ∈ ([pA] : List ProjectInfo) ↔
      pA ∈ [pA] ∧ project_ready pA = true ∧ in_cooldown t0 pA = false :=
  C7_output_subset no_defects t0 [pA] [pA]
    (prioritize_singleton no_defects t0 pA (by decide) (by decide) (by decide)) pA

/-- **C8**: `schedule_pipelines` is a strict short-circuit pipeline: an
empty worker set aborts with NoRunners regardless of project data; then
an empty candidate set aborts with NoProjects; then if every candidate
fails readiness/cooldown it aborts with NoEligibleProjects; otherwise
(scoring data being present) it produces the non-empty ranked
sequence. -/
theorem C8_run_cycle_contract {R : Type} (defects : String → Nat) (now : Int)
    (runners : List R) (ps : List ProjectInfo) :
    (runners = [] → schedule_pipelines defects now runners ps =
      some CycleResult.abortedNoRunners) ∧
    (runners ≠ [] → ps = [] → schedule_pipelines defects now runners ps =
      some CycleResult.abortedNoProjects) ∧
    (runners ≠ [] → ps ≠ [] → filtered_projects now ps = [] →
      schedule_pipelines defects now runners ps =
        some CycleResult.abortedNoEligibleProjects) ∧
    (runners ≠ [] → filtered_projects now ps ≠ [] →
      (∀ p ∈ filtered_projects now ps, p.last_modified.isSome) →
      ∃ l, l ≠ [] ∧ prioritize_projects defects now ps = some l ∧
        schedule_pipelines defects now runners ps = some (CycleResult.ranked l)) := by
  refine ⟨?_, ?_, ?_, ?_⟩
  · intro h
    subst h
    rfl
  · intro h1 h2
    subst h2
    rw [schedule_pipelines, isEmpty_false_of_ne_nil h1]
    rfl
  · intro h1 h2 h3
    have hpr : prioritize_projects defects now ps = some [] := by
      rw [prioritize_projects_eq, h3]
      rfl
    rw [schedule_pipelines, isEmpty_false_of_ne_nil h1, isEmpty_false_of_ne_nil h2, hpr]
    rfl
  · intro h1 h2 h3
    have hpr : prioritize_projects defects now ps =
        some ((List.insertionSort scoreGE
          ((claim_score_list defects now (filtered_projects now ps)).zip
            (filtered_projects now ps))).map Prod.snd) := by
      rw [prioritize_projects_eq, scored_projects_of_all_some h3]
      rfl
    have hlperm := prioritize_perm hpr
    have hlne : (List.insertionSort scoreGE
        ((claim_score_list defects now (filtered_projects now ps)).zip
          (filtered_projects now ps))).map Prod.snd ≠ [] := by
      intro hnil
      rw [hnil] at hlperm
      exact h2 hlperm.symm.eq_nil
    have hps : ps ≠ [] := by
      intro hnil
      subst hnil
      exact h2 rfl
    refine ⟨_, hlne, hpr, ?_⟩
    rw [schedule_pipelines, isEmpty_false_of_ne_nil h1, isEmpty_false_of_ne_nil hps, hpr]
    simp [isEmpty_false_of_ne_nil hlne]
/-- Witness for C8: all four outcomes at concrete inputs. -/
theorem C8_witness :
    schedule_pipelines no_defects t0 ([] : List Nat) [pA] =
      some CycleResult.abortedNoRunners ∧
    schedule_pipelines no_defects t0 [(0 : Nat)] ([] : List ProjectInfo) =
      some CycleResult.abortedNoProjects ∧
    schedule_pipelines no_defects t0 [(0 : Nat)] [pNotReady] =
      some CycleResult.abortedNoEligibleProjects ∧
    schedule_pipelines no_defects t0 [(0 : Nat)] [pA] =
      some (CycleResult.ranked [pA]) := by
  refine ⟨(C8_run_cycle_contract no_defects t0 ([] : List Nat) [pA]).1 rfl,
    (C8_run_cycle_contract no_defects t0 [(0 : Nat)] ([] : List ProjectInfo)).2.1
      (by decide) rfl,
    (C8_run_cycle_contract no_defects t0 [(0 : Nat)] [pNotReady]).2.2.1
      (by decide) (by decide) (by decide),
    ?_⟩
  obtain ⟨l, -, hpr, hsch⟩ := (C8_run_cycle_contract no_defects t0 [(0 : Nat)] [pA]).2.2.2
    (by decide) (by decide) (by decide)
  rw [prioritize_singleton no_defects t0 pA (by decide) (by decide) (by decide)] at hpr
  injection hpr with hpr'
  subst hpr'
  exact hsch

/-- **C9**: a ready, non-cooldown candidate without `lastModified` makes
the whole cycle fail hard (`none`: the uncaught `TypeError` from the
subtraction at line 190), with no fabricated score; and when every kept
candidate has `lastModified`, the engine succeeds and scores all of
them (the output is a permutation of the kept candidates). -/
theorem C9_missing_last_modified (defects : String → Nat) (now : Int)
    (ps : List ProjectInfo) :
    ((∃ p ∈ filtered_projects now ps, p.last_modified = none) →
      prioritize_projects defects now ps = none) ∧
    ((∀ p ∈ filtered_projects now ps, p.last_modified.isSome) →
      ∃ l, prioritize_projects defects now ps = some l ∧
        l.Perm (filtered_projects now ps)) := by
  constructor
  · intro h
    rw [prioritize_projects_eq, scored_projects_eq_none h]
    rfl
  · intro h
    have hpr : prioritize_projects defects now ps =
        some ((List.insertionSort scoreGE
          ((claim_score_list defects now (filtered_projects now ps)).zip
            (filtered_projects now ps))).map Prod.snd) := by
      rw [prioritize_projects_eq, scored_projects_of_all_some h]
      rfl
    exact ⟨_, hpr, prioritize_perm hpr⟩

/-- Witness for C9: a candidate with no `last_modified` aborts the
cycle; the same candidate with a timestamp is ranked. -/
theorem C9_witness :
    prioritize_projects no_defects t0 [pNoStamp] = none ∧
    prioritize_projects no_defects t0 [pA] = some [pA] :=
  ⟨(C9_missing_last_modified no_defects t0 [pNoStamp]).1 ⟨pNoStamp, by decide, rfl⟩,
   prioritize_singleton no_defects t0 pA (by decide) (by decide) (by decide)⟩

/-- **C10**: the `archived` flag is never consulted by filtering or
scoring: uniformly overwriting it changes nothing but the same
overwrite in the output (so an archived candidate is ranked exactly as
its non-archived twin), and every eligible candidate — archived or not —
appears in a successful output. -/
theorem C10_archived_inert (defects : String → Nat) (now : Int) (b : Bool)
    (ps : List ProjectInfo) :
    prioritize_projects defects now (ps.map (set_archived b)) =
      Option.map (List.map (set_archived b)) (prioritize_projects defects now ps) ∧
    ∀ p ∈ ps, project_ready p = true → in_cooldown now p = false →
      ∀ l, prioritize_projects defects now ps = some l → p ∈ l :=
  ⟨prioritize_map_set_archived defects now b ps,
   fun p hp h1 h2 l hl => (mem_prioritize hl).mpr ⟨hp, h1, h2⟩⟩

/-- Witness for C10 at an archived, eligible candidate. -/
theorem C10_witness :
    prioritize_projects no_defects t0 ([pArch].map (set_archived true)) =
      Option.map (List.map (set_archived true))
        (prioritize_projects no_defects t0 [pArch]) ∧
    pArch ∈ ([pArch] : List ProjectInfo) :=
  ⟨(C10_archived_inert no_defects t0 true [pArch]).1,
   (C10_archived_inert no_defects t0 true [pArch]).2 pArch (by decide) (by decide)
     (by decide) [pArch]
     (prioritize_singleton no_defects t0 pArch (by decide) (by decide) (by decide))⟩

end FuzzingPipelineScheduler
